import Mathlib

/-!
Verification of the symbol-mapping, enrichment and CSV-persistence core of the
project_hannk crypto data collector.

The development shallowly embeds the relevant functions of
`src/collector.py` (class `BinanceEODCollector`, namespace `Collector` below)
and `src/binance_eod_collector/crypto_collector_v2.py` (class
`CryptoDataCollector`, namespace `CryptoV2` below).

Modelling conventions:
* a pandas DataFrame is a Lean `List` of record structures, in row order;
* a Python dict is an association list; insertion prepends a binding and
  lookup takes the first binding, so later insertions shadow earlier ones
  exactly as dict assignment overwrites;
* the CSV file on disk is `Option (List CsvRow)` (`none` = the file does not
  exist); numeric CSV columns other than the `(date, symbol)` key play no
  role in the store logic and are abstracted into a single `value` field;
* Python strings that are scanned character-wise (trading-pair symbols in
  `extract_base_symbol`) are `List Char`; strings only compared for equality
  stay `String`;
* numeric text fields of API responses are `NumStr`: either text parsing to
  a numeric value (abstracted to that value) or malformed text on which
  `float`/`astype(float)` raises;
* network responses are passed in as explicit arguments (response lists or
  response functions), one value per HTTP request the code would make.
-/

namespace ProjectHannk

/-- Python dict lookup (`d.get(k)` / `d[k]`) on an association list where
the first binding for a key wins. -/
def alookup {κ β : Type} [DecidableEq κ] : List (κ × β) → κ → Option β
  | [], _ => none
  | (k, v) :: rest, key => if key = k then some v else alookup rest key

namespace Collector

/-- One persisted CSV row of `all_pairs_eod.csv`.  The store logic of
`save_to_csv` only inspects the key columns `date` and `symbol`; all other
columns (open, high, low, close, volume, quote_volume, trades, market_cap,
...) are abstracted into `value`. -/
structure CsvRow where
  date : Nat
  symbol : String
  value : Int
  deriving DecidableEq, Repr

/-- The deduplication key used by `drop_duplicates(subset=[date, symbol])`. -/
def rowKey (r : CsvRow) : Nat × String := (r.date, r.symbol)

/-- `combined_df.drop_duplicates(subset=[date, symbol], keep=last)`:
a row is kept iff no later row carries the same `(date, symbol)` key. -/
def dedupKeepLast : List CsvRow → List CsvRow
  | [] => []
  | r :: rs =>
      if ∃ x ∈ rs, rowKey x = rowKey r then dedupKeepLast rs
      else r :: dedupKeepLast rs

/-- The `sort_values([symbol, date])` order: by symbol, then by date. -/
def rowLE (a b : CsvRow) : Prop :=
  a.symbol < b.symbol ∨ (a.symbol = b.symbol ∧ a.date ≤ b.date)

instance : DecidableRel rowLE := fun a b => by
  unfold rowLE; infer_instance

instance : IsTotal CsvRow rowLE := by
  constructor
  intro a b
  rcases lt_trichotomy a.symbol b.symbol with h | h | h
  · exact Or.inl (Or.inl h)
  · rcases Nat.le_total a.date b.date with hd | hd
    · exact Or.inl (Or.inr ⟨h, hd⟩)
    · exact Or.inr (Or.inr ⟨h.symm, hd⟩)
  · exact Or.inr (Or.inl h)

instance : IsTrans CsvRow rowLE := by
  constructor
  intro a b c hab hbc
  rcases hab with h1 | ⟨h1, d1⟩
  · rcases hbc with h2 | ⟨h2, _⟩
    · exact Or.inl (h1.trans h2)
    · exact Or.inl (h2 ▸ h1)
  · rcases hbc with h2 | ⟨h2, d2⟩
    · exact Or.inl (h1 ▸ h2)
    · exact Or.inr ⟨h1.trans h2, d1.trans d2⟩

/-- `combined_df.sort_values([symbol, date])`. -/
def sortRows (l : List CsvRow) : List CsvRow := List.insertionSort rowLE l

/-- The merge ('append') path of `save_to_csv`: read the existing rows,
concatenate the new rows after them, deduplicate on `(date, symbol)`
keeping the last occurrence, and re-sort by `(symbol, date)`. -/
def merge_rows (existing df : List CsvRow) : List CsvRow :=
  sortRows (dedupKeepLast (existing ++ df))

/-- `save_to_csv(df, filename, mode)` acting on the file state.
An empty DataFrame returns immediately; mode `a` with an existing file
merges; otherwise the file is overwritten with `df` as given. -/
def save_to_csv (state : Option (List CsvRow)) (df : List CsvRow)
    (mode : String) : Option (List CsvRow) :=
  if df = [] then state
  else
    match state, mode with
    | some existing, "a" => some (merge_rows existing df)
    | _, _ => some df

/-- All rows of `l` whose `(date, symbol)` key is `k`, in order. -/
def filterKey (k : Nat × String) (l : List CsvRow) : List CsvRow :=
  l.filter fun r => rowKey r = k

/-- The recognized quote assets of `extract_base_symbol`, in source order. -/
def quoteAssets : List (List Char) :=
  ["USDT".toList, "BUSD".toList, "USDC".toList, "BTC".toList, "ETH".toList,
   "BNB".toList, "TRX".toList, "XRP".toList, "TUSD".toList, "PAX".toList,
   "EUR".toList, "GBP".toList, "AUD".toList, "TRY".toList]

/-- The suffix-matching loop of `extract_base_symbol`: try each quote asset
in order; on an `endswith` match whose remaining base is non-empty, return
the base (the symbol without its last `len(quote)` characters); otherwise
keep scanning. -/
def tryQuotes (s : List Char) : List (List Char) → Option (List Char)
  | [] => none
  | q :: rest =>
      if q <:+ s then
        if s.take (s.length - q.length) = [] then tryQuotes s rest
        else some (s.take (s.length - q.length))
      else tryQuotes s rest

/-- `extract_base_symbol(binance_symbol)`: strip a recognized quote-asset
suffix from the trading-pair symbol; `none` models the Python `None`
sentinel returned when no quote asset matches. -/
def extract_base_symbol (binance_symbol : List Char) : Option (List Char) :=
  tryQuotes binance_symbol quoteAssets

/-- `map_binance_to_coingecko(binance_symbol)` of `collector.py`: extract
the base asset, then look it up in the CoinGecko symbol→id map returned by
`get_coingecko_coins_list`. -/
def map_binance_to_coingecko (coingecko_map : List (List Char × String))
    (binance_symbol : List Char) : Option String :=
  match extract_base_symbol binance_symbol with
  | none => none
  | some base => alookup coingecko_map base

/-- A CoinGecko market-data record as stored by `get_coingecko_market_data`
(each field comes from `coin.get(...)` and may be null/absent). -/
structure MarketRec where
  market_cap : Option Int
  circulating_supply : Option Int
  total_supply : Option Int
  max_supply : Option Int
  deriving DecidableEq, Repr

/-- One coin object of a CoinGecko `/coins/markets` response. -/
structure CoinRow where
  id : String
  market_cap : Option Int
  circulating_supply : Option Int
  total_supply : Option Int
  max_supply : Option Int
  deriving DecidableEq, Repr

/-- The batches of `for i in range(0, len(coingecko_ids), 250):
batch = coingecko_ids[i:i+250]`. -/
def batches (coingecko_ids : List String) : List (List String) :=
  (List.range ((coingecko_ids.length + 249) / 250)).map
    fun i => (coingecko_ids.drop (250 * i)).take 250

/-- One request per batch: a successful response inserts every returned
coin into the accumulated dict (`market_data[coin.id] = {...}`); a failed
request is logged and the loop continues. -/
def processBatches (respond : List String → Option (List CoinRow)) :
    List (List String) → List (String × MarketRec) → List (String × MarketRec)
  | [], acc => acc
  | b :: bs, acc =>
      match respond b with
      | some coins =>
          processBatches respond bs
            (coins.foldl (fun a c =>
              (c.id, ⟨c.market_cap, c.circulating_supply, c.total_supply,
                c.max_supply⟩) :: a) acc)
      | none => processBatches respond bs acc

/-- `get_coingecko_market_data(coingecko_ids)` with the per-batch HTTP
outcome supplied by `respond` (`none` = request exception / non-2xx). -/
def get_coingecko_market_data (respond : List String → Option (List CoinRow))
    (coingecko_ids : List String) : List (String × MarketRec) :=
  processBatches respond (batches coingecko_ids) []

/-- Every loop iteration issues exactly one GET request, also when the
response errors out: the request count is the batch count. -/
def requestsIssued (coingecko_ids : List String) : Nat :=
  (batches coingecko_ids).length

/-- A numeric API field transmitted as text: either text that parses to a
number (abstracted to the parsed value) or malformed text on which
`astype(float)` raises. -/
inductive NumStr where
  | num (v : Int)
  | malformed (s : String)
  deriving DecidableEq, Repr

/-- `float(...)` applied to one text field. -/
def parseNum : NumStr → Option Int
  | .num v => some v
  | .malformed _ => none

/-- One raw kline tuple of the Binance historical-klines response, fields
named by the DataFrame columns; the six price/volume fields arrive as text.
(`close_time`, `taker_buy_base`, `taker_buy_quote` and `ignore` are dropped
by the column selection and never parsed.) -/
structure RawKline where
  timestamp : Nat
  openText : NumStr
  highText : NumStr
  lowText : NumStr
  closeText : NumStr
  volumeText : NumStr
  quoteVolumeText : NumStr
  closeTime : Nat
  trades : Nat
  takerBuyBaseText : NumStr
  takerBuyQuoteText : NumStr
  ignoreText : NumStr
  deriving DecidableEq, Repr

/-- One row of the DataFrame returned by `get_historical_klines`: columns
`date, open, high, low, close, volume, quote_volume, trades, symbol`
(`date` is the UTC day index derived from the millisecond timestamp). -/
structure Bar where
  date : Nat
  openPrice : Int
  highPrice : Int
  lowPrice : Int
  closePrice : Int
  volume : Int
  quoteVolume : Int
  trades : Nat
  symbol : List Char
  deriving DecidableEq, Repr

/-- Parse the six numeric text fields of one kline row. -/
def parseKline (symbol : List Char) (r : RawKline) : Option Bar :=
  match parseNum r.openText, parseNum r.highText, parseNum r.lowText,
      parseNum r.closeText, parseNum r.volumeText,
      parseNum r.quoteVolumeText with
  | some o, some h, some l, some c, some v, some qv =>
      some ⟨r.timestamp / 86400000, o, h, l, c, v, qv, r.trades, symbol⟩
  | _, _, _, _, _, _ => none

/-- All-or-nothing column conversion: `df[col].astype(float)` raises on the
first malformed value, so one bad field anywhere aborts the conversion of
the whole DataFrame. -/
def parseAll (symbol : List Char) : List RawKline → Option (List Bar)
  | [] => some []
  | r :: rs =>
      match parseKline symbol r, parseAll symbol rs with
      | some b, some bs => some (b :: bs)
      | _, _ => none

/-- `get_historical_klines(symbol)` applied to the raw klines of the
exchange response: an empty response gives an empty DataFrame; the
catch-all `except` around the conversion turns a parse exception into an
empty DataFrame as well. -/
def get_historical_klines (symbol : List Char) (klines : List RawKline) :
    List Bar :=
  if klines = [] then []
  else
    match parseAll symbol klines with
    | some bars => bars
    | none => []

/-- The truthiness test `if cg_id:` applied to the resolver result inside
`enrich_with_coingecko_data`: a missing or empty-string CoinGecko id counts
as unmapped. -/
def resolveT (coingecko_map : List (List Char × String))
    (symbol : List Char) : Option String :=
  match map_binance_to_coingecko coingecko_map symbol with
  | some cg => if cg = "" then none else some cg
  | none => none

/-- `df[symbol].unique()`: distinct values in first-occurrence order. -/
def uniqueSyms : List (List Char) → List (List Char)
  | [] => []
  | s :: rest => s :: (uniqueSyms rest).filter (fun x => x ≠ s)

/-- One enriched output row: the bar plus the four CoinGecko columns
(`none` models the initial `None` column values). -/
structure EnrichedRow where
  bar : Bar
  market_cap : Option Int
  circulating_supply : Option Int
  total_supply : Option Int
  max_supply : Option Int
  deriving DecidableEq, Repr

/-- The row loop of `enrich_with_coingecko_data`: attach market data when
the row's symbol is in `symbol_to_coingecko` and its id is in
`market_data`; otherwise leave the `None` columns in place. -/
def enrichRow (symbol_to_coingecko : List (List Char × String))
    (market_data : List (String × MarketRec)) (b : Bar) : EnrichedRow :=
  match alookup symbol_to_coingecko b.symbol with
  | some cg =>
      match alookup market_data cg with
      | some m =>
          ⟨b, m.market_cap, m.circulating_supply, m.total_supply, m.max_supply⟩
      | none => ⟨b, none, none, none, none⟩
  | none => ⟨b, none, none, none, none⟩

/-- The `symbol_to_coingecko` dict: distinct input symbols that pass the
truthiness test, paired with their ids, in first-occurrence order. -/
def buildMapped (coingecko_map : List (List Char × String))
    (symbols : List (List Char)) : List (List Char × String) :=
  symbols.filterMap fun s => (resolveT coingecko_map s).map fun cg => (s, cg)

/-- `df[symbol].unique()` at the top of `enrich_with_coingecko_data`. -/
def symbolsOf (df : List Bar) : List (List Char) :=
  uniqueSyms (df.map Bar.symbol)

/-- The `symbol_to_coingecko` dict built for `df`. -/
def mappedOf (coingecko_map : List (List Char × String)) (df : List Bar) :
    List (List Char × String) :=
  buildMapped coingecko_map (symbolsOf df)

/-- The `market_data` dict fetched for the mapped ids of `df`. -/
def marketDataOf (coingecko_map : List (List Char × String))
    (respond : List String → Option (List CoinRow)) (df : List Bar) :
    List (String × MarketRec) :=
  get_coingecko_market_data respond ((mappedOf coingecko_map df).map Prod.snd)

/-- The enriched DataFrame before the final notna filter. -/
def rowsOf (coingecko_map : List (List Char × String))
    (respond : List String → Option (List CoinRow)) (df : List Bar) :
    List EnrichedRow :=
  df.map (enrichRow (mappedOf coingecko_map df) (marketDataOf coingecko_map respond df))

/-- `enrich_with_coingecko_data(df)`, parameterized by the CoinGecko
symbol→id map and the per-batch market-data responses.  Returns the pair
(enriched rows, skipped symbols): unmapped symbols are skipped up front; if
nothing maps, everything is skipped; otherwise a row whose market_cap
column stays null is filtered out at the end and its symbol appended
(deduplicated, as a Python set) to the skipped list. -/
def enrich_with_coingecko_data (coingecko_map : List (List Char × String))
    (respond : List String → Option (List CoinRow)) (df : List Bar) :
    List EnrichedRow × List (List Char) :=
  if df = [] then ([], [])
  else if mappedOf coingecko_map df = [] then ([], symbolsOf df)
  else
    ((rowsOf coingecko_map respond df).filter fun r => r.market_cap ≠ none,
     ((symbolsOf df).filter fun s => resolveT coingecko_map s = none) ++
       uniqueSyms (((rowsOf coingecko_map respond df).filter
           fun r => r.market_cap = none).map fun r => r.bar.symbol))

/-- The per-symbol enrichment decision of `enrich_with_coingecko_data`: the
symbol has a mapped id and that id has fetched non-null market-cap data. -/
def symbolEnriched (symbol_to_coingecko : List (List Char × String))
    (market_data : List (String × MarketRec)) (s : List Char) : Prop :=
  ∃ cg, alookup symbol_to_coingecko s = some cg ∧
    ∃ m, alookup market_data cg = some m ∧ m.market_cap ≠ none

end Collector

namespace CryptoV2

/-- The manual override table `special_mappings` inside
`CryptoDataCollector.map_binance_to_coingecko`. -/
def special_mappings : List (String × String) :=
  [("BNB", "binancecoin"), ("WBTC", "wrapped-bitcoin"), ("WETH", "weth"),
   ("SHIB", "shiba-inu"), ("DOGE", "dogecoin"), ("MATIC", "matic-network")]

/-- `map_binance_to_coingecko(base_asset, symbol_to_id)` of
`crypto_collector_v2.py`: consult the persistent cache, then the bulk
CoinGecko listing `symbol_to_id`, then the special-case table; a hit
outside the cache is written back into the cache.  Returns the resolved id
(if any) together with the updated cache. -/
def map_binance_to_coingecko (symbol_mapping : List (String × String))
    (base_asset : String) (symbol_to_id : List (String × String)) :
    Option String × List (String × String) :=
  match alookup symbol_mapping base_asset with
  | some cg => (some cg, symbol_mapping)
  | none =>
    match alookup symbol_to_id base_asset with
    | some cg => (some cg, (base_asset, cg) :: symbol_mapping)
    | none =>
      match alookup special_mappings base_asset with
      | some cg => (some cg, (base_asset, cg) :: symbol_mapping)
      | none => (none, symbol_mapping)

/-- Outcome of one CoinGecko `market_chart` request inside
`get_historical_data`. -/
inductive Resp where
  | success (prices : List (Nat × Int)) (market_caps : List (Nat × Int))
      (total_volumes : List (Nat × Int))
  | http429
  | httpError
  | exception
  deriving DecidableEq, Repr

/-- One row of the `get_historical_data` DataFrame (the `date` column, a
string formatting of the millisecond timestamp, is represented by the day
index). -/
structure ChartRow where
  timestamp : Nat
  date : Nat
  price : Int
  market_cap : Int
  volume : Int
  deriving DecidableEq, Repr

/-- The DataFrame built from a successful `market_chart` response: empty if
any of the three series is empty, else the zip of the three series. -/
def buildChart (prices market_caps total_volumes : List (Nat × Int)) :
    List ChartRow :=
  if prices = [] ∨ market_caps = [] ∨ total_volumes = [] then []
  else
    (prices.zip (market_caps.zip total_volumes)).map fun pmv =>
      ⟨pmv.1.1, pmv.1.1 / 86400000, pmv.1.2, pmv.2.1.2, pmv.2.2.2⟩

/-- `get_historical_data(coingecko_id, days)` run against the scripted
sequence of successive request outcomes: a 429 response sleeps 60 seconds
and recursively retries (consuming the next outcome); any other HTTP error
or exception returns an empty DataFrame; a success builds the DataFrame.
`none` means the script ran out while the function was still retrying. -/
def get_historical_data : List Resp → Option (List ChartRow)
  | [] => none
  | Resp.success p m v :: _ => some (buildChart p m v)
  | Resp.http429 :: rest => get_historical_data rest
  | Resp.httpError :: _ => some []
  | Resp.exception :: _ => some []

/-- Number of HTTP requests `get_historical_data` makes against the
script: each 429 outcome consumes one request and triggers another. -/
def httpAttempts : List Resp → Nat
  | [] => 0
  | Resp.http429 :: rest => 1 + httpAttempts rest
  | _ :: _ => 1

/-- The DataFrame a non-429 outcome terminates with. -/
def terminalResult : Resp → List ChartRow
  | Resp.success p m v => buildChart p m v
  | _ => []

end CryptoV2

namespace Collector

theorem filterKey_nil (k : Nat × String) : filterKey k [] = [] := rfl

theorem filterKey_cons (k : Nat × String) (r : CsvRow) (l : List CsvRow) :
    filterKey k (r :: l) =
      if rowKey r = k then r :: filterKey k l else filterKey k l := by
  simp only [filterKey, List.filter]
  by_cases h : rowKey r = k <;> simp [h]

theorem filterKey_append (k : Nat × String) (l₁ l₂ : List CsvRow) :
    filterKey k (l₁ ++ l₂) = filterKey k l₁ ++ filterKey k l₂ :=
  List.filter_append ..

theorem mem_filterKey {k : Nat × String} {r : CsvRow} {l : List CsvRow} :
    r ∈ filterKey k l ↔ r ∈ l ∧ rowKey r = k := by
  simp [filterKey]

/-- If some member of `l` has key `k` then `filterKey k l` is nonempty. -/
theorem filterKey_ne_nil {k : Nat × String} {l : List CsvRow}
    (h : ∃ r ∈ l, rowKey r = k) : filterKey k l ≠ [] := by
  obtain ⟨r, hr, hk⟩ := h
  intro hnil
  have : r ∈ filterKey k l := mem_filterKey.mpr ⟨hr, hk⟩
  simp [hnil] at this

/-- If no member of `l` has key `k` then `filterKey k l` is empty. -/
theorem filterKey_eq_nil {k : Nat × String} {l : List CsvRow}
    (h : ∀ r ∈ l, rowKey r ≠ k) : filterKey k l = [] := by
  apply List.filter_eq_nil_iff.mpr
  intro r hr
  simp [h r hr]

/-- Master lemma: after `keep=last` deduplication, the rows with key `k`
are exactly the last row of `l` carrying key `k` (if any). -/
theorem filterKey_dedupKeepLast (k : Nat × String) :
    ∀ l : List CsvRow,
      filterKey k (dedupKeepLast l) = (filterKey k l).getLast?.toList
  | [] => rfl
  | r :: rs => by
      rw [dedupKeepLast]
      by_cases hdup : ∃ x ∈ rs, rowKey x = rowKey r
      · rw [if_pos hdup, filterKey_dedupKeepLast k rs, filterKey_cons]
        by_cases hk : rowKey r = k
        · subst hk
          have hne : filterKey (rowKey r) rs ≠ [] := filterKey_ne_nil hdup
          rw [if_pos rfl]
          obtain ⟨a, t, ht⟩ := List.exists_cons_of_ne_nil hne
          rw [ht, List.getLast?_cons_cons]
        · rw [if_neg hk]
      · rw [if_neg hdup, filterKey_cons, filterKey_cons,
          filterKey_dedupKeepLast k rs]
        by_cases hk : rowKey r = k
        · subst hk
          have hnil : filterKey (rowKey r) rs = [] := by
            apply filterKey_eq_nil
            intro x hx hkx
            exact hdup ⟨x, hx, hkx⟩
          rw [if_pos rfl, if_pos rfl, hnil]
          rfl
        · rw [if_neg hk, if_neg hk]

theorem mem_of_getLast?_eq :
    ∀ {l : List CsvRow} {a : CsvRow}, l.getLast? = some a → a ∈ l
  | [], _, h => by simp at h
  | [x], a, h => by
      simp [List.getLast?] at h
      simp [h]
  | x :: y :: ys, a, h => by
      rw [List.getLast?_cons_cons] at h
      exact List.mem_cons_of_mem x (mem_of_getLast?_eq h)

theorem count_filterKey (r : CsvRow) (l : List CsvRow) :
    (filterKey (rowKey r) l).count r = l.count r := by
  induction l with
  | nil => rfl
  | cons x xs ih =>
      rw [filterKey_cons]
      by_cases h : rowKey x = rowKey r
      · rw [if_pos h, List.count_cons, List.count_cons, ih]
      · rw [if_neg h, List.count_cons, ih]
        have hxr : (x == r) = false := by
          simp only [beq_eq_false_iff_ne, ne_eq]
          intro he
          exact h (he ▸ rfl)
        simp [hxr]

theorem count_dedupKeepLast (r : CsvRow) (l : List CsvRow) :
    (dedupKeepLast l).count r =
      ((filterKey (rowKey r) l).getLast?.toList).count r := by
  rw [← count_filterKey r (dedupKeepLast l), filterKey_dedupKeepLast]

theorem sortRows_perm (l : List CsvRow) : List.Perm (sortRows l) l :=
  List.perm_insertionSort rowLE l

/-- The per-key last row of a merged file followed by a re-merge of the same
rows agrees with the per-key last row of the first merge's input. -/
theorem getLast?_filterKey_merge (E N : List CsvRow) (k : Nat × String) :
    (filterKey k (merge_rows E N ++ N)).getLast? =
      (filterKey k (E ++ N)).getLast? := by
  rw [filterKey_append, filterKey_append]
  by_cases hN : filterKey k N = []
  · rw [hN, List.append_nil, List.append_nil]
    have hperm : List.Perm (filterKey k (merge_rows E N))
        (filterKey k (dedupKeepLast (E ++ N))) :=
      (sortRows_perm (dedupKeepLast (E ++ N))).filter _
    rw [filterKey_dedupKeepLast, filterKey_append, hN, List.append_nil] at hperm
    cases h : (filterKey k E).getLast? with
    | none =>
        rw [h] at hperm
        simp only [Option.toList_none, List.perm_nil] at hperm
        rw [hperm]
        rfl
    | some a =>
        rw [h] at hperm
        simp only [Option.toList_some] at hperm
        rw [List.perm_singleton.mp hperm]
        rfl
  · rw [List.getLast?_append_of_ne_nil _ hN, List.getLast?_append_of_ne_nil _ hN]

/-- C1: merge-mode `save_to_csv` is last-wins on the `(date, symbol)` key:
after merging new rows that all carry value `B` on key `(D, S)` into an
existing file holding some row with that key, the resulting file contains
exactly one row with key `(D, S)`, it carries `B`, and the file is sorted
by `(symbol, date)`. -/
theorem C1_merge_last_wins (E N : List CsvRow) (D : Nat) (S : String) (A B : Int)
    (_hE : (⟨D, S, A⟩ : CsvRow) ∈ E)
    (hNmem : ∃ r ∈ N, rowKey r = (D, S))
    (hNval : ∀ r ∈ N, rowKey r = (D, S) → r.value = B) :
    save_to_csv (some E) N "a" = some (merge_rows E N) ∧
    filterKey (D, S) (merge_rows E N) = [⟨D, S, B⟩] ∧
    List.Sorted rowLE (merge_rows E N) := by
  obtain ⟨r', hr', hk'⟩ := hNmem
  have hNne : N ≠ [] := by
    intro h
    rw [h] at hr'
    simp at hr'
  refine ⟨by simp [save_to_csv, hNne], ?_, List.sorted_insertionSort rowLE _⟩
  have hperm : List.Perm (filterKey (D, S) (merge_rows E N))
      (filterKey (D, S) (dedupKeepLast (E ++ N))) :=
    (sortRows_perm (dedupKeepLast (E ++ N))).filter _
  rw [filterKey_dedupKeepLast, filterKey_append] at hperm
  have hfn : filterKey (D, S) N ≠ [] := filterKey_ne_nil ⟨r', hr', hk'⟩
  rw [List.getLast?_append_of_ne_nil _ hfn] at hperm
  cases hlast : (filterKey (D, S) N).getLast? with
  | none =>
      obtain ⟨a, t, ht⟩ := List.exists_cons_of_ne_nil hfn
      rw [ht] at hlast
      simp [List.getLast?_eq_getLast] at hlast
  | some r0 =>
      have hr0 : r0 ∈ filterKey (D, S) N := mem_of_getLast?_eq hlast
      obtain ⟨hr0N, hr0k⟩ := mem_filterKey.mp hr0
      have hval : r0.value = B := hNval r0 hr0N hr0k
      have hr0eq : r0 = ⟨D, S, B⟩ := by
        obtain ⟨d, s, v⟩ := r0
        simp only [rowKey, Prod.mk.injEq] at hr0k
        simp_all
      rw [hlast, hr0eq] at hperm
      simp only [Option.toList_some] at hperm
      exact List.perm_singleton.mp hperm

theorem C1_merge_last_wins_witness :
    save_to_csv (some [⟨1, "BTC", 5⟩]) [⟨1, "BTC", 9⟩] "a" =
      some (merge_rows [⟨1, "BTC", 5⟩] [⟨1, "BTC", 9⟩]) ∧
    filterKey (1, "BTC") (merge_rows [⟨1, "BTC", 5⟩] [⟨1, "BTC", 9⟩]) =
      [⟨1, "BTC", 9⟩] ∧
    List.Sorted rowLE (merge_rows [⟨1, "BTC", 5⟩] [⟨1, "BTC", 9⟩]) :=
  C1_merge_last_wins [⟨1, "BTC", 5⟩] [⟨1, "BTC", 9⟩] 1 "BTC" 5 9
    (by decide) (by decide) (by decide)

/-- C8 counterexample: starting from a missing file, merge-mode
`save_to_csv` writes the rows verbatim (no dedup); repeating the identical
write then dedups, so the row set differs between one and two applications
when the input rows share a `(date, symbol)` key. -/
theorem C8_counterexample :
    save_to_csv none [⟨1, "A", 1⟩, ⟨1, "A", 2⟩] "a" =
      some [⟨1, "A", 1⟩, ⟨1, "A", 2⟩] ∧
    save_to_csv (some [⟨1, "A", 1⟩, ⟨1, "A", 2⟩]) [⟨1, "A", 1⟩, ⟨1, "A", 2⟩] "a" =
      some [⟨1, "A", 2⟩] ∧
    (⟨1, "A", 1⟩ : CsvRow) ∈ [⟨1, "A", 1⟩, ⟨1, "A", 2⟩] ∧
    (⟨1, "A", 1⟩ : CsvRow) ∉ [⟨1, "A", 2⟩] := by
  refine ⟨by decide, by decide, by decide, by decide⟩

/-- C8 (amended): merge-mode `save_to_csv` applied twice with the same rows
onto an initially existing file yields, after the second application, a
file that is a permutation (identical row multiset) of the file after the
first application. -/
theorem C8_merge_idempotent_existing (E N : List CsvRow) :
    ∃ f₁ f₂, save_to_csv (some E) N "a" = some f₁ ∧
      save_to_csv (some f₁) N "a" = some f₂ ∧ List.Perm f₂ f₁ := by
  by_cases hN : N = []
  · subst hN
    exact ⟨E, E, by simp [save_to_csv], by simp [save_to_csv], List.Perm.refl E⟩
  · refine ⟨merge_rows E N, merge_rows (merge_rows E N) N,
      by simp [save_to_csv, hN], by simp [save_to_csv, hN], ?_⟩
    apply List.perm_iff_count.mpr
    intro r
    have h₂ : (merge_rows (merge_rows E N) N).count r =
        (dedupKeepLast (merge_rows E N ++ N)).count r :=
      (sortRows_perm _).count_eq r
    have h₁ : (merge_rows E N).count r =
        (dedupKeepLast (E ++ N)).count r :=
      (sortRows_perm _).count_eq r
    rw [h₂, h₁, count_dedupKeepLast, count_dedupKeepLast,
      getLast?_filterKey_merge]

/-- C9: calling `save_to_csv` with an empty row collection in merge mode
returns at once without touching the file: the stored contents are
unchanged. -/
theorem C9_empty_write_noop (E : List CsvRow) :
    save_to_csv (some E) [] "a" = some E := by
  simp [save_to_csv]

theorem tryQuotes_none (s : List Char) :
    ∀ L, (∀ q ∈ L, ¬ q <:+ s) → tryQuotes s L = none
  | [], _ => rfl
  | q :: rest, h => by
      rw [tryQuotes, if_neg (h q (List.mem_cons_self q rest))]
      exact tryQuotes_none s rest fun p hp => h p (List.mem_cons_of_mem q hp)

theorem tryQuotes_hit (B Q : List Char) (hB : B ≠ []) :
    ∀ L, Q ∈ L → (∀ q ∈ L, q ≠ Q → ¬ q <:+ (B ++ Q)) →
      tryQuotes (B ++ Q) L = some B
  | [], hQ, _ => by simp at hQ
  | q :: rest, hQ, h => by
      by_cases hq : q = Q
      · subst hq
        rw [tryQuotes, if_pos (List.suffix_append B q)]
        have hlen : (B ++ q).length - q.length = B.length := by
          simp [List.length_append]
        rw [hlen, List.take_left]
        simp [hB]
      · rw [tryQuotes, if_neg (h q (List.mem_cons_self q rest) hq)]
        have hQ' : Q ∈ rest := by
          rcases List.mem_cons.mp hQ with h' | h'
          · exact absurd h'.symm hq
          · exact h'
        exact tryQuotes_hit B Q hB rest hQ'
          fun p hp hne => h p (List.mem_cons_of_mem q hp) hne

/-- No recognized quote asset is a suffix of a different recognized quote
asset: the 14 suffixes never shadow each other. -/
theorem quoteAssets_pairwise_not_suffix :
    ∀ q ∈ quoteAssets, ∀ p ∈ quoteAssets, q ≠ p → ¬ q <:+ p := by decide

/-- C5: for every non-empty base `B` and recognized quote asset `Q`,
`extract_base_symbol (B ++ Q)` returns exactly `B`; and on a symbol ending
in no recognized quote asset it returns the `None` sentinel (the function
is total: no exception escapes). -/
theorem C5_suffix_extraction :
    (∀ B Q : List Char, B ≠ [] → Q ∈ quoteAssets →
        extract_base_symbol (B ++ Q) = some B) ∧
    (∀ s : List Char, (∀ q ∈ quoteAssets, ¬ q <:+ s) →
        extract_base_symbol s = none) := by
  constructor
  · intro B Q hB hQ
    apply tryQuotes_hit B Q hB quoteAssets hQ
    intro q hq hne hsuf
    rcases List.suffix_or_suffix_of_suffix hsuf (List.suffix_append B Q) with h | h
    · exact quoteAssets_pairwise_not_suffix q hq Q hQ hne h
    · exact quoteAssets_pairwise_not_suffix Q hQ q hq (Ne.symm hne) h
  · intro s hs
    exact tryQuotes_none s quoteAssets hs

theorem C5_suffix_extraction_witness :
    extract_base_symbol ("BTC".toList ++ "USDT".toList) = some "BTC".toList ∧
    extract_base_symbol "FAKEQ".toList = none :=
  ⟨C5_suffix_extraction.1 "BTC".toList "USDT".toList (by decide) (by decide),
   C5_suffix_extraction.2 "FAKEQ".toList (by decide)⟩

/-- One unparseable field anywhere makes the whole-column conversion
raise. -/
theorem parseAll_eq_none {symbol : List Char} {klines : List RawKline}
    (h : ∃ r ∈ klines, parseKline symbol r = none) :
    parseAll symbol klines = none := by
  induction klines with
  | nil => simp at h
  | cons x xs ih =>
      obtain ⟨r, hr, hnone⟩ := h
      rcases List.mem_cons.mp hr with he | hmem
      · subst he
        cases h2 : parseAll symbol xs <;> simp [parseAll, hnone, h2]
      · rw [parseAll, ih ⟨r, hmem, hnone⟩]
        cases parseKline symbol x <;> rfl

/-- C3 counterexample: a batch of two klines, the first fully well-formed
and the second with malformed `open` text, yields an empty DataFrame
instead of the claimed singleton with the well-formed row. -/
theorem C3_counterexample :
    get_historical_klines "BTCUSDT".toList
        [⟨0, .num 1, .num 2, .num 3, .num 4, .num 5, .num 6, 1, 10,
            .num 0, .num 0, .num 0⟩,
         ⟨86400000, .malformed "oops", .num 2, .num 3, .num 4, .num 5,
            .num 6, 1, 10, .num 0, .num 0, .num 0⟩] = [] ∧
    parseKline "BTCUSDT".toList
        ⟨0, .num 1, .num 2, .num 3, .num 4, .num 5, .num 6, 1, 10,
          .num 0, .num 0, .num 0⟩ =
      some ⟨0, 1, 2, 3, 4, 5, 6, 10, "BTCUSDT".toList⟩ ∧
    ([] : List Bar) ≠ [⟨0, 1, 2, 3, 4, 5, 6, 10, "BTCUSDT".toList⟩] := by
  refine ⟨rfl, rfl, by decide⟩

/-- C3 (amended): a numeric field that fails to parse is fatal for the
whole batch, not only its row: if any kline of the response fails to parse,
`get_historical_klines` returns an empty DataFrame, dropping the
well-formed rows of the batch too. -/
theorem C3_malformed_drops_batch (symbol : List Char) (klines : List RawKline)
    (h : ∃ r ∈ klines, parseKline symbol r = none) :
    get_historical_klines symbol klines = [] := by
  have hne : klines ≠ [] := by
    rintro rfl
    simp at h
  unfold get_historical_klines
  rw [if_neg hne, parseAll_eq_none h]

theorem C3_malformed_drops_batch_witness :
    get_historical_klines "BTCUSDT".toList
        [⟨0, .num 1, .num 2, .num 3, .num 4, .num 5, .num 6, 1, 10,
            .num 0, .num 0, .num 0⟩,
         ⟨86400000, .malformed "oops", .num 2, .num 3, .num 4, .num 5,
            .num 6, 1, 10, .num 0, .num 0, .num 0⟩] = [] :=
  C3_malformed_drops_batch "BTCUSDT".toList _ (by decide)

theorem mem_keys_foldl_coins (coins : List CoinRow)
    (acc : List (String × MarketRec)) (k : String) :
    (k ∈ (coins.foldl (fun a c =>
        ((c.id, ⟨c.market_cap, c.circulating_supply, c.total_supply,
          c.max_supply⟩) : String × MarketRec) :: a) acc).map Prod.fst) ↔
      (k ∈ acc.map Prod.fst ∨ k ∈ coins.map CoinRow.id) := by
  induction coins generalizing acc with
  | nil => simp
  | cons c cs ih =>
      rw [List.foldl_cons, ih]
      simp [List.mem_cons]
      tauto

theorem mem_keys_processBatches (respond : List String → Option (List CoinRow)) :
    ∀ (bs : List (List String)) (acc : List (String × MarketRec)) (k : String),
      (k ∈ (processBatches respond bs acc).map Prod.fst) ↔
        (k ∈ acc.map Prod.fst ∨
          ∃ b ∈ bs, ∃ coins, respond b = some coins ∧ k ∈ coins.map CoinRow.id)
  | [], acc, k => by simp [processBatches]
  | b :: bs, acc, k => by
      rw [processBatches]
      cases hr : respond b with
      | none =>
          rw [mem_keys_processBatches respond bs acc k]
          simp only [List.exists_mem_cons_iff, hr]
          constructor
          · rintro (h | h)
            · exact Or.inl h
            · exact Or.inr (Or.inr h)
          · rintro (h | ⟨coins, hcoins, _⟩ | h)
            · exact Or.inl h
            · cases hcoins
            · exact Or.inr h
      | some coins =>
          rw [mem_keys_processBatches respond bs _ k, mem_keys_foldl_coins]
          simp only [List.exists_mem_cons_iff, hr, Option.some.injEq]
          constructor
          · rintro ((h | h) | h)
            · exact Or.inl h
            · exact Or.inr (Or.inl ⟨coins, rfl, h⟩)
            · exact Or.inr (Or.inr h)
          · rintro (h | ⟨coins', he, hk⟩ | h)
            · exact Or.inl (Or.inl h)
            · cases he
              exact Or.inl (Or.inr hk)
            · exact Or.inr h

/-- C6: `get_coingecko_market_data` splits `n` ids into exactly
`ceil(n/250)` batches of at most 250 ids (3 batches for `2*250+1` ids),
issues one request per batch whether or not it fails (no retry), and the
key set of the returned dict is exactly the union of the coin ids of the
successful batch responses; an empty input yields an empty dict with zero
requests. -/
theorem C6_batch_boundary (respond : List String → Option (List CoinRow))
    (ids : List String) :
    requestsIssued ids = (ids.length + 249) / 250 ∧
    (ids.length = 2 * 250 + 1 → requestsIssued ids = 3) ∧
    (∀ b ∈ batches ids, b.length ≤ 250) ∧
    (∀ k : String,
        k ∈ (get_coingecko_market_data respond ids).map Prod.fst ↔
          ∃ b ∈ batches ids, ∃ coins, respond b = some coins ∧
            k ∈ coins.map CoinRow.id) ∧
    (ids = [] → requestsIssued ids = 0 ∧
        get_coingecko_market_data respond ids = []) := by
  refine ⟨?_, ?_, ?_, ?_, ?_⟩
  · simp [requestsIssued, batches]
  · intro h
    simp [requestsIssued, batches, h]
  · intro b hb
    simp only [batches, List.mem_map] at hb
    obtain ⟨i, _, rfl⟩ := hb
    rw [List.length_take]
    exact Nat.min_le_left _ _
  · intro k
    rw [get_coingecko_market_data, mem_keys_processBatches]
    simp
  · rintro rfl
    exact ⟨rfl, rfl⟩

theorem mem_uniqueSyms :
    ∀ (l : List (List Char)) (s : List Char), s ∈ uniqueSyms l ↔ s ∈ l
  | [], s => by simp [uniqueSyms]
  | a :: t, s => by
      rw [uniqueSyms]
      constructor
      · intro h
        rcases List.mem_cons.mp h with rfl | hmem
        · exact List.mem_cons_self _ _
        · exact List.mem_cons_of_mem _
            ((mem_uniqueSyms t s).mp (List.mem_filter.mp hmem).1)
      · intro hmem
        rcases List.mem_cons.mp hmem with rfl | hmem'
        · exact List.mem_cons_self _ _
        · by_cases hsa : s = a
          · subst hsa
            exact List.mem_cons_self _ _
          · refine List.mem_cons_of_mem _
              (List.mem_filter.mpr ⟨(mem_uniqueSyms t s).mpr hmem', ?_⟩)
            simp [hsa]

/-- Looking up a symbol in the `symbol_to_coingecko` dict gives its
truthiness-filtered resolution, provided the symbol is among the distinct
input symbols the dict was built from. -/
theorem alookup_buildMapped (cg : List (List Char × String)) :
    ∀ (syms : List (List Char)) (s : List Char),
      alookup (buildMapped cg syms) s =
        if s ∈ syms then resolveT cg s else none
  | [], s => by simp [buildMapped, alookup]
  | a :: t, s => by
      unfold buildMapped
      rw [List.filterMap_cons]
      cases hra : resolveT cg a with
      | none =>
          simp only [hra, Option.map_none']
          have ih := alookup_buildMapped cg t s
          unfold buildMapped at ih
          rw [ih]
          by_cases hsa : s = a
          · subst hsa
            by_cases hst : s ∈ t <;> simp [hst, hra]
          · simp [List.mem_cons, hsa]
      | some cgid =>
          simp only [hra, Option.map_some']
          rw [alookup]
          by_cases hsa : s = a
          · subst hsa
            simp [hra]
          · rw [if_neg hsa]
            have ih := alookup_buildMapped cg t s
            unfold buildMapped at ih
            rw [ih]
            simp [List.mem_cons, hsa]

theorem enrichRow_bar (stc : List (List Char × String))
    (md : List (String × MarketRec)) (b : Bar) :
    (enrichRow stc md b).bar = b := by
  cases h1 : alookup stc b.symbol with
  | none => simp [enrichRow, h1]
  | some cg =>
      cases h2 : alookup md cg with
      | none => simp [enrichRow, h1, h2]
      | some m => simp [enrichRow, h1, h2]

/-- A row survives the final notna filter iff its symbol has a mapped id
whose fetched record has a non-null market cap. -/
theorem enrichRow_market_cap (stc : List (List Char × String))
    (md : List (String × MarketRec)) (b : Bar) :
    ((enrichRow stc md b).market_cap ≠ none) ↔
      symbolEnriched stc md b.symbol := by
  cases h1 : alookup stc b.symbol with
  | none => simp [enrichRow, symbolEnriched, h1]
  | some cg =>
      cases h2 : alookup md cg with
      | none => simp [enrichRow, symbolEnriched, h1, h2]
      | some m => simp [enrichRow, symbolEnriched, h1, h2]

theorem mem_enriched_symbols (stc : List (List Char × String))
    (md : List (String × MarketRec)) (df : List Bar) (s : List Char) :
    (s ∈ ((df.map (enrichRow stc md)).filter
        fun r => r.market_cap ≠ none).map fun r => r.bar.symbol) ↔
      ∃ b ∈ df, b.symbol = s ∧ symbolEnriched stc md s := by
  simp only [List.mem_map, List.mem_filter, decide_not, Bool.not_eq_true',
    decide_eq_false_iff_not]
  constructor
  · rintro ⟨r, ⟨⟨b, hb, rfl⟩, hpred⟩, hsym⟩
    rw [enrichRow_bar] at hsym
    subst hsym
    exact ⟨b, hb, rfl, (enrichRow_market_cap stc md b).mp hpred⟩
  · rintro ⟨b, hb, rfl, hQ⟩
    exact ⟨enrichRow stc md b, ⟨⟨b, hb, rfl⟩,
      (enrichRow_market_cap stc md b).mpr hQ⟩, by rw [enrichRow_bar]⟩

theorem mem_dropped_symbols (stc : List (List Char × String))
    (md : List (String × MarketRec)) (df : List Bar) (s : List Char) :
    (s ∈ ((df.map (enrichRow stc md)).filter
        fun r => r.market_cap = none).map fun r => r.bar.symbol) ↔
      ∃ b ∈ df, b.symbol = s ∧ ¬ symbolEnriched stc md s := by
  simp only [List.mem_map, List.mem_filter, decide_eq_true_eq]
  constructor
  · rintro ⟨r, ⟨⟨b, hb, rfl⟩, hpred⟩, hsym⟩
    rw [enrichRow_bar] at hsym
    subst hsym
    refine ⟨b, hb, rfl, ?_⟩
    intro hQ
    exact (enrichRow_market_cap stc md b).mpr hQ hpred
  · rintro ⟨b, hb, rfl, hQ⟩
    refine ⟨enrichRow stc md b, ⟨⟨b, hb, rfl⟩, ?_⟩, by rw [enrichRow_bar]⟩
    by_contra hne
    exact hQ ((enrichRow_market_cap stc md b).mp hne)

/-- C10: `enrich_with_coingecko_data` partitions the input symbols: the
symbols of the enriched output and of the skipped list are disjoint, and
their union is exactly the set of symbols of the input bars (the skipped
list may repeat a symbol; the statement is membership-wise). -/
theorem C10_enrichment_partitions (coingecko_map : List (List Char × String))
    (respond : List String → Option (List CoinRow)) (df : List Bar) :
    (∀ s, s ∈ (enrich_with_coingecko_data coingecko_map respond df).1.map
          (fun r => r.bar.symbol) →
        s ∉ (enrich_with_coingecko_data coingecko_map respond df).2) ∧
    (∀ s, (s ∈ (enrich_with_coingecko_data coingecko_map respond df).1.map
          (fun r => r.bar.symbol) ∨
        s ∈ (enrich_with_coingecko_data coingecko_map respond df).2) ↔
        s ∈ df.map Bar.symbol) := by
  by_cases hdf : df = []
  · subst hdf
    simp [enrich_with_coingecko_data]
  · by_cases hmap : mappedOf coingecko_map df = []
    · simp only [enrich_with_coingecko_data, if_neg hdf, if_pos hmap]
      constructor
      · intro s hs
        simp at hs
      · intro s
        simp only [List.map_nil, List.not_mem_nil, false_or]
        rw [symbolsOf, mem_uniqueSyms]
    · simp only [enrich_with_coingecko_data, if_neg hdf, if_neg hmap]
      constructor
      · intro s hs hsk
        rw [rowsOf] at hs
        obtain ⟨b, hb, hbs, hQ⟩ := (mem_enriched_symbols _ _ df s).mp hs
        rcases List.mem_append.mp hsk with hsk1 | hsk2
        · rw [List.mem_filter] at hsk1
          obtain ⟨hsyms, hres⟩ := hsk1
          rw [decide_eq_true_eq] at hres
          obtain ⟨cg, hcg, _⟩ := hQ
          rw [mappedOf, alookup_buildMapped, if_pos hsyms, hres] at hcg
          cases hcg
        · rw [mem_uniqueSyms, rowsOf] at hsk2
          obtain ⟨b', hb', hbs', hnQ⟩ := (mem_dropped_symbols _ _ df s).mp hsk2
          exact hnQ hQ
      · intro s
        constructor
        · rintro (hs | hsk)
          · rw [rowsOf] at hs
            obtain ⟨b, hb, hbs, _⟩ := (mem_enriched_symbols _ _ df s).mp hs
            exact List.mem_map.mpr ⟨b, hb, hbs⟩
          · rcases List.mem_append.mp hsk with h1 | h2
            · have hmem := (List.mem_filter.mp h1).1
              rw [symbolsOf, mem_uniqueSyms] at hmem
              exact hmem
            · rw [mem_uniqueSyms, rowsOf] at h2
              obtain ⟨b, hb, hbs, _⟩ := (mem_dropped_symbols _ _ df s).mp h2
              exact List.mem_map.mpr ⟨b, hb, hbs⟩
        · intro hsym
          obtain ⟨b, hb, hbs⟩ := List.mem_map.mp hsym
          by_cases hQ : symbolEnriched (mappedOf coingecko_map df)
              (marketDataOf coingecko_map respond df) s
          · left
            rw [rowsOf]
            exact (mem_enriched_symbols _ _ df s).mpr ⟨b, hb, hbs, hQ⟩
          · right
            apply List.mem_append.mpr
            right
            rw [mem_uniqueSyms, rowsOf]
            exact (mem_dropped_symbols _ _ df s).mpr ⟨b, hb, hbs, hQ⟩

/-- C7: a bar whose symbol resolved but whose provider id has no fetched
non-null market-cap value is excluded from the enriched output and its
symbol is added to the skipped list (first conjunct, fully general); and on
three bars over distinct symbols A (resolvable with market-cap data), B
(unresolvable) and C (resolvable without market-cap data), exactly A's
enriched row is returned and the skipped symbols are exactly B and C
(second conjunct). -/
theorem C7_enrichment_exclusion :
    (∀ (coingecko_map : List (List Char × String))
        (respond : List String → Option (List CoinRow))
        (df : List Bar) (b : Bar) (cgid : String),
        b ∈ df →
        alookup (mappedOf coingecko_map df) b.symbol = some cgid →
        (∀ m, alookup (marketDataOf coingecko_map respond df) cgid = some m →
            m.market_cap = none) →
        (b.symbol ∉ (enrich_with_coingecko_data coingecko_map respond df).1.map
            (fun r => r.bar.symbol) ∧
         b.symbol ∈ (enrich_with_coingecko_data coingecko_map respond df).2)) ∧
    (∀ (coingecko_map : List (List Char × String))
        (respond : List String → Option (List CoinRow))
        (bA bB bC : Bar) (idA idC : String) (mA : MarketRec),
        bA.symbol ≠ bB.symbol → bA.symbol ≠ bC.symbol → bB.symbol ≠ bC.symbol →
        resolveT coingecko_map bA.symbol = some idA →
        resolveT coingecko_map bB.symbol = none →
        resolveT coingecko_map bC.symbol = some idC →
        alookup (marketDataOf coingecko_map respond [bA, bB, bC]) idA =
          some mA →
        mA.market_cap ≠ none →
        (∀ m, alookup (marketDataOf coingecko_map respond [bA, bB, bC]) idC =
            some m → m.market_cap = none) →
        ((enrich_with_coingecko_data coingecko_map respond [bA, bB, bC]).1 =
          [⟨bA, mA.market_cap, mA.circulating_supply, mA.total_supply,
            mA.max_supply⟩] ∧
         ∀ s, s ∈ (enrich_with_coingecko_data coingecko_map respond
              [bA, bB, bC]).2 ↔ (s = bB.symbol ∨ s = bC.symbol))) := by
  constructor
  · intro cg respond df b cgid hb hmap hnone
    have hdf : df ≠ [] := by
      rintro rfl
      simp at hb
    have hmapne : mappedOf cg df ≠ [] := by
      intro h
      rw [h] at hmap
      simp [alookup] at hmap
    have hnQ : ¬ symbolEnriched (mappedOf cg df)
        (marketDataOf cg respond df) b.symbol := by
      rintro ⟨cg', hcg', m, hm, hmc⟩
      rw [hmap] at hcg'
      cases hcg'
      exact hmc (hnone m hm)
    constructor
    · intro hmem
      simp only [enrich_with_coingecko_data, if_neg hdf, if_neg hmapne] at hmem
      rw [rowsOf] at hmem
      obtain ⟨b', hb', hbs', hQ⟩ := (mem_enriched_symbols _ _ df _).mp hmem
      exact hnQ hQ
    · simp only [enrich_with_coingecko_data, if_neg hdf, if_neg hmapne]
      apply List.mem_append.mpr
      right
      rw [mem_uniqueSyms, rowsOf]
      exact (mem_dropped_symbols _ _ df _).mpr ⟨b, hb, rfl, hnQ⟩
  · intro cg respond bA bB bC idA idC mA hAB hAC hBC hA hB hC hmA hmAmc hCnone
    have hdf : ([bA, bB, bC] : List Bar) ≠ [] := by simp
    have hsyms : symbolsOf [bA, bB, bC] =
        [bA.symbol, bB.symbol, bC.symbol] := by
      simp [symbolsOf, uniqueSyms, List.filter, Ne.symm hAB, Ne.symm hAC,
        Ne.symm hBC]
    have hstc : mappedOf cg [bA, bB, bC] =
        [(bA.symbol, idA), (bC.symbol, idC)] := by
      rw [mappedOf, hsyms]
      simp [buildMapped, List.filterMap_cons, hA, hB, hC]
    have hmapne : mappedOf cg [bA, bB, bC] ≠ [] := by
      rw [hstc]
      simp
    have hlookA : alookup (mappedOf cg [bA, bB, bC]) bA.symbol = some idA := by
      rw [hstc]
      simp [alookup]
    have hlookB : alookup (mappedOf cg [bA, bB, bC]) bB.symbol = none := by
      rw [hstc]
      simp [alookup, Ne.symm hAB, hBC]
    have hlookC : alookup (mappedOf cg [bA, bB, bC]) bC.symbol = some idC := by
      rw [hstc]
      simp [alookup, Ne.symm hAC]
    have hrA : enrichRow (mappedOf cg [bA, bB, bC])
        (marketDataOf cg respond [bA, bB, bC]) bA =
        ⟨bA, mA.market_cap, mA.circulating_supply, mA.total_supply,
          mA.max_supply⟩ := by
      simp [enrichRow, hlookA, hmA]
    have hrBmc : (enrichRow (mappedOf cg [bA, bB, bC])
        (marketDataOf cg respond [bA, bB, bC]) bB).market_cap = none := by
      simp [enrichRow, hlookB]
    have hrCmc : (enrichRow (mappedOf cg [bA, bB, bC])
        (marketDataOf cg respond [bA, bB, bC]) bC).market_cap = none := by
      cases hm : alookup (marketDataOf cg respond [bA, bB, bC]) idC with
      | none => simp [enrichRow, hlookC, hm]
      | some m => simp [enrichRow, hlookC, hm, hCnone m hm]
    constructor
    · simp only [enrich_with_coingecko_data, if_neg hdf, if_neg hmapne]
      rw [rowsOf]
      simp only [List.map_cons, List.map_nil]
      simp [List.filter_cons, hrA, hrBmc, hrCmc, hmAmc]
    · intro s
      simp only [enrich_with_coingecko_data, if_neg hdf, if_neg hmapne]
      rw [List.mem_append]
      constructor
      · rintro (h1 | h2)
        · rw [hsyms] at h1
          simp [List.mem_filter, hA, hB, hC] at h1
          exact Or.inl h1
        · rw [mem_uniqueSyms, rowsOf] at h2
          simp only [List.map_cons, List.map_nil] at h2
          simp [List.filter_cons, hrA, hrBmc, hrCmc, hmAmc,
            enrichRow_bar] at h2
          exact h2
      · rintro (rfl | rfl)
        · left
          rw [hsyms]
          simp [List.mem_filter, hB]
        · right
          rw [mem_uniqueSyms, rowsOf]
          simp only [List.map_cons, List.map_nil]
          simp [List.filter_cons, hrA, hrBmc, hrCmc, hmAmc, List.mem_map,
            enrichRow_bar]

theorem C7_enrichment_exclusion_witness :
    (enrich_with_coingecko_data
        [("BTC".toList, "bitcoin"), ("ADA".toList, "cardano")]
        (fun b => if b = ["bitcoin", "cardano"] then
            some [⟨"bitcoin", some 100, some 1, some 2, some 3⟩] else none)
        [⟨1, 0, 0, 0, 0, 0, 0, 0, "BTCUSDT".toList⟩,
         ⟨1, 0, 0, 0, 0, 0, 0, 0, "FAKE".toList⟩,
         ⟨1, 0, 0, 0, 0, 0, 0, 0, "ADAUSDT".toList⟩]).1 =
      [⟨⟨1, 0, 0, 0, 0, 0, 0, 0, "BTCUSDT".toList⟩,
        some 100, some 1, some 2, some 3⟩] ∧
    ∀ s, s ∈ (enrich_with_coingecko_data
        [("BTC".toList, "bitcoin"), ("ADA".toList, "cardano")]
        (fun b => if b = ["bitcoin", "cardano"] then
            some [⟨"bitcoin", some 100, some 1, some 2, some 3⟩] else none)
        [⟨1, 0, 0, 0, 0, 0, 0, 0, "BTCUSDT".toList⟩,
         ⟨1, 0, 0, 0, 0, 0, 0, 0, "FAKE".toList⟩,
         ⟨1, 0, 0, 0, 0, 0, 0, 0, "ADAUSDT".toList⟩]).2 ↔
      (s = (⟨1, 0, 0, 0, 0, 0, 0, 0, "FAKE".toList⟩ : Bar).symbol ∨
       s = (⟨1, 0, 0, 0, 0, 0, 0, 0, "ADAUSDT".toList⟩ : Bar).symbol) :=
  C7_enrichment_exclusion.2
    [("BTC".toList, "bitcoin"), ("ADA".toList, "cardano")]
    (fun b => if b = ["bitcoin", "cardano"] then
        some [⟨"bitcoin", some 100, some 1, some 2, some 3⟩] else none)
    ⟨1, 0, 0, 0, 0, 0, 0, 0, "BTCUSDT".toList⟩
    ⟨1, 0, 0, 0, 0, 0, 0, 0, "FAKE".toList⟩
    ⟨1, 0, 0, 0, 0, 0, 0, 0, "ADAUSDT".toList⟩
    "bitcoin" "cardano" ⟨some 100, some 1, some 2, some 3⟩
    (by decide) (by decide) (by decide)
    (by decide) (by decide) (by decide)
    (by decide) (by decide)
    (fun m hm => by
      rw [show alookup (marketDataOf
          [("BTC".toList, "bitcoin"), ("ADA".toList, "cardano")]
          (fun b => if b = ["bitcoin", "cardano"] then
              some [⟨"bitcoin", some 100, some 1, some 2, some 3⟩] else none)
          [⟨1, 0, 0, 0, 0, 0, 0, 0, "BTCUSDT".toList⟩,
           ⟨1, 0, 0, 0, 0, 0, 0, 0, "FAKE".toList⟩,
           ⟨1, 0, 0, 0, 0, 0, 0, 0, "ADAUSDT".toList⟩]) "cardano" =
          (none : Option MarketRec) from rfl] at hm
      cases hm)

theorem C6_batch_boundary_witness :
    requestsIssued ["bitcoin"] = (1 + 249) / 250 ∧
    (["bitcoin"].length = 2 * 250 + 1 → requestsIssued ["bitcoin"] = 3) ∧
    (∀ b ∈ batches ["bitcoin"], b.length ≤ 250) ∧
    (∀ k : String,
        k ∈ (get_coingecko_market_data (fun _ => none) ["bitcoin"]).map
            Prod.fst ↔
          ∃ b ∈ batches ["bitcoin"], ∃ coins,
            (fun (_ : List String) => (none : Option (List CoinRow))) b =
              some coins ∧ k ∈ coins.map CoinRow.id) ∧
    (["bitcoin"] = ([] : List String) →
        requestsIssued ["bitcoin"] = 0 ∧
        get_coingecko_market_data (fun _ => none) ["bitcoin"] = []) :=
  C6_batch_boundary (fun _ => none) ["bitcoin"]

end Collector

namespace CryptoV2

theorem get_historical_data_429_step (rest : List Resp) :
    get_historical_data (Resp.http429 :: rest) = get_historical_data rest := rfl

theorem httpAttempts_429_step (rest : List Resp) :
    httpAttempts (Resp.http429 :: rest) = 1 + httpAttempts rest := rfl

/-- C2 counterexample: on two consecutive 429 responses followed by a
success, `get_historical_data` makes a third request (a second retry of the
same original request) and returns the third response's data, instead of
treating the 429 received on the first retry as a plain transport error
with an empty result; so the retry count is not bounded by one. -/
theorem C2_counterexample :
    httpAttempts [Resp.http429, Resp.http429,
        Resp.success [(0, 7)] [(0, 1)] [(0, 2)]] = 3 ∧
    ¬ httpAttempts [Resp.http429, Resp.http429,
        Resp.success [(0, 7)] [(0, 1)] [(0, 2)]] ≤ 2 ∧
    get_historical_data [Resp.http429, Resp.http429,
        Resp.success [(0, 7)] [(0, 1)] [(0, 2)]] =
      some [⟨0, 0, 7, 1, 2⟩] ∧
    some [(⟨0, 0, 7, 1, 2⟩ : ChartRow)] ≠ some ([] : List ChartRow) := by
  refine ⟨rfl, by decide, rfl, by decide⟩

/-- C2 (amended): a 429 response makes `get_historical_data` back off and
retry recursively without bound: after any number `n` of consecutive 429
responses, the first non-429 outcome decides the result (its DataFrame on
success, an empty DataFrame on any other error), and `n + 1` requests are
issued in total. -/
theorem C2_retry_unbounded (n : Nat) (r : Resp) (h : r ≠ Resp.http429) :
    get_historical_data (List.replicate n Resp.http429 ++ [r]) =
      some (terminalResult r) ∧
    httpAttempts (List.replicate n Resp.http429 ++ [r]) = n + 1 := by
  induction n with
  | zero =>
      simp only [List.replicate, List.nil_append]
      cases r with
      | success p m v => exact ⟨rfl, rfl⟩
      | http429 => exact absurd rfl h
      | httpError => exact ⟨rfl, rfl⟩
      | exception => exact ⟨rfl, rfl⟩
  | succ k ih =>
      rw [List.replicate_succ, List.cons_append]
      refine ⟨?_, ?_⟩
      · rw [get_historical_data_429_step]
        exact ih.1
      · rw [httpAttempts_429_step, ih.2]
        omega

theorem C2_retry_unbounded_witness :
    get_historical_data
        (List.replicate 2 Resp.http429 ++ [Resp.httpError]) =
      some (terminalResult Resp.httpError) ∧
    httpAttempts (List.replicate 2 Resp.http429 ++ [Resp.httpError]) = 2 + 1 :=
  C2_retry_unbounded 2 Resp.httpError (by decide)

/-- C4 counterexample: with an empty cache and base asset BNB present both
in the bulk listing (with id bnb-token) and in the manual override table
(with id binancecoin), `map_binance_to_coingecko` returns the listing id,
not the override id the claim requires. -/
theorem C4_counterexample :
    (map_binance_to_coingecko [] "BNB" [("BNB", "bnb-token")]).1 =
      some "bnb-token" ∧
    alookup special_mappings "BNB" = some "binancecoin" ∧
    some "bnb-token" ≠ (some "binancecoin" : Option String) := by
  refine ⟨rfl, rfl, by decide⟩

/-- C4 (amended): on a cache miss the bulk provider listing is consulted
before, and takes precedence over, the manual override table: when the base
asset is present in both with different ids, the listing id is returned
(and written back into the cache). -/
theorem C4_listing_precedes_override
    (cache symbol_to_id : List (String × String)) (base lid oid : String)
    (hc : alookup cache base = none)
    (hl : alookup symbol_to_id base = some lid)
    (_ho : alookup special_mappings base = some oid)
    (_hne : lid ≠ oid) :
    map_binance_to_coingecko cache base symbol_to_id =
      (some lid, (base, lid) :: cache) := by
  unfold map_binance_to_coingecko
  rw [hc, hl]

theorem C4_listing_precedes_override_witness :
    map_binance_to_coingecko [] "BNB" [("BNB", "bnb-token")] =
      (some "bnb-token", [("BNB", "bnb-token")]) :=
  C4_listing_precedes_override [] [("BNB", "bnb-token")] "BNB"
    "bnb-token" "binancecoin" rfl rfl rfl (by decide)

end CryptoV2

end ProjectHannk
